import Mathlib

/-!
Verification development for the query-tree core of `react-querybuilder`.

The first sections embed the JavaScript value model and the default
Elasticsearch rule processor (`defaultRuleProcessorElasticSearch.ts`).
Later sections model the tree shapes, the structural operations and the
conversion utilities described in the specification, and prove the
claimed properties about them.
-/

/-- A JavaScript value as it appears in a rule's `value` slot:
a string, a (finite) number, a boolean, an array, or `null`/`undefined`. -/
inductive JsVal where
  | str (s : String)
  | num (q : Rat)
  | bool (b : Bool)
  | arr (vs : List JsVal)
  | null

/-- `typeof v === 'string'` for the embedded value model. -/
def isStrB : JsVal → Bool
  | .str _ => true
  | _ => false

/-- Character-level `startsWith`: `p` is a prefix of `s`. -/
def strStartsWith (s p : String) : Bool := List.isPrefixOf p.data s.data

/-- Character-level lower-casing. -/
def lowerStr (s : String) : String := String.mk (s.data.map Char.toLower)

/-- Join a list of strings with a separator (JavaScript `Array.join`). -/
def joinWith (sep : String) : List String → String
  | [] => ""
  | [x] => x
  | x :: y :: xs => x ++ sep ++ joinWith sep (y :: xs)

/-- Split a character list at commas (JavaScript `String.split(',')`). -/
def splitCommaGo (cur : List Char) : List Char → List (List Char)
  | [] => [cur.reverse]
  | c :: cs =>
      if c = Char.ofNat 44 then cur.reverse :: splitCommaGo [] cs
      else splitCommaGo (c :: cur) cs

/-- Trim whitespace from both ends of a character list (`String.trim`). -/
def trimWS (cs : List Char) : List Char :=
  ((cs.dropWhile Char.isWhitespace).reverse.dropWhile Char.isWhitespace).reverse

/-- Split a string at commas, trim each item, drop empty items. -/
def splitTrim (s : String) : List String :=
  ((splitCommaGo [] s.data).map (fun cs => String.mk (trimWS cs))).filter
    (fun t => t ≠ "")

/-- JavaScript truthiness of an embedded value. -/
def jsTruthy : JsVal → Bool
  | .str s => s ≠ ""
  | .num q => q ≠ 0
  | .bool b => b
  | .arr _ => true
  | .null => false

mutual

/-- JavaScript string coercion as used in template literals.
Numeric formatting is a model approximation (never load-bearing here). -/
def jsTemplate : JsVal → String
  | .str s => s
  | .num q => toString q
  | .bool b => if b then "true" else "false"
  | .arr vs => joinWith "," (jsTemplateList vs)
  | .null => "null"

/-- String coercion of every element of an array, for `jsTemplate`. -/
def jsTemplateList : List JsVal → List String
  | [] => []
  | v :: vs => jsTemplate v :: jsTemplateList vs

end

/-- Modelled from the spec: `toArray` (the `arrayUtils` module is not under
`src/`). Arrays pass through; strings are treated as comma-delimited lists
(spec section 4.5: multi-value operators accept "delimited strings or actual
sequences"), with items trimmed and empty items dropped; a number forms a
singleton; `null`/`undefined`/`false` yield the empty list. -/
def toArray : JsVal → List JsVal
  | .arr vs => vs
  | .str s => (splitTrim s).map JsVal.str
  | .num q => [.num q]
  | .bool b => if b then [.bool b] else []
  | .null => []

/-- Modelled from the spec: `isValidValue` (the `formatQuery/utils` module is
not under `src/`). A value is valid unless it is an empty string (the model
has no `NaN`, so every number is valid; non-string non-number values count as
valid). -/
def isValidValue : JsVal → Bool
  | .str s => s ≠ ""
  | _ => true

/-- Modelled from the spec: the numeric-literal test (`numericRegex`, not
under `src/`; `importExport.ts` documents that each string value "is
evaluated against numericRegex"). The shape accepted here: an optional sign
followed by a decimal numeral with an optional fractional part, containing
at least one digit. -/
def numericShape (cs : List Char) : Bool :=
  let intPart := cs.takeWhile Char.isDigit
  let rest := cs.dropWhile Char.isDigit
  match rest with
  | [] => !intPart.isEmpty
  | c :: frac =>
      if c = Char.ofNat 46 then
        (!intPart.isEmpty || !frac.isEmpty) && frac.all Char.isDigit
      else false

/-- Modelled from the spec: the numeric-literal test applied to a string,
handling the optional leading sign. -/
def numericRegexB (s : String) : Bool :=
  match s.data with
  | [] => false
  | c :: cs =>
      if c = Char.ofNat 45 || c = Char.ofNat 43 then numericShape cs
      else numericShape (c :: cs)

/-- Value of a digit character. -/
def digitVal (c : Char) : Nat := c.toNat - 48

/-- Natural number denoted by a list of digit characters (empty list: 0). -/
def digitsToNat (cs : List Char) : Nat :=
  cs.foldl (fun n c => n * 10 + digitVal c) 0

/-- Rational denoted by an unsigned decimal numeral `intpart[.fracpart]`. -/
def parseDec (cs : List Char) : Rat :=
  let intPart := cs.takeWhile Char.isDigit
  let rest := cs.dropWhile Char.isDigit
  let frac :=
    match rest with
    | c :: f => if c = Char.ofNat 46 then f.takeWhile Char.isDigit else []
    | [] => []
  (digitsToNat intPart : Rat) + (digitsToNat frac : Rat) / ((10 : Rat) ^ frac.length)

/-- Modelled from the spec: `parseFloat` on a string (exact on every string
accepted by the numeric-literal test, which guards all of its uses). -/
def parseFloatQ (s : String) : Rat :=
  match s.data with
  | c :: cs =>
      if c = Char.ofNat 45 then - parseDec cs
      else if c = Char.ofNat 43 then parseDec cs
      else parseDec (c :: cs)
  | [] => 0

/-- `parseFloat` applied to an embedded value. Every call site guards it
with `shouldRenderAsNumber`, so only numbers and numeric strings reach it
(the fallback 0 models the unreachable `NaN` branch). -/
def parseFloatV : JsVal → Rat
  | .num q => q
  | .str s => parseFloatQ s
  | _ => 0

/-- Modelled from the spec: `shouldRenderAsNumber` (the `formatQuery/utils`
module is not under `src/`; `importExport.ts` documents the behavior): true
when `parseNumbers` is set and the value is a number or a string passing the
numeric-literal test. -/
def shouldRenderAsNumber (v : JsVal) (parseNumbers : Bool) : Bool :=
  parseNumbers &&
    (match v with
     | .num _ => true
     | .str s => numericRegexB s
     | _ => false)

/-- The single-quote character. -/
def sqChar : Char := Char.ofNat 39

/-- The backslash character. -/
def bsChar : Char := Char.ofNat 92

/-- The single-quote character as a string. -/
def sqStr : String := "\x27"

/-- One step of `escapeSQ`: quote and backslash get a backslash prefix. -/
def escapeChar (c : Char) : List Char :=
  if c = sqChar || c = bsChar then [bsChar, c] else [c]

/-- `escapeSQ` from `defaultRuleProcessorElasticSearch.ts`:
`s.replace(/('|\\)/g, '\\$1')`. -/
def escapeSQ (s : String) : String :=
  String.mk (s.data.foldr (fun c acc => escapeChar c ++ acc) [])

/-- `escapeSQ` applied to an arbitrary JS value, as the source does with
`s?.replace(...)`: a string is escaped, `null`/`undefined` propagates as
`undefined` (`Except.ok none`), and any other value throws a `TypeError`
(`.replace` is not a function), modelled as `Except.error`. -/
def escapeSQVal : JsVal → Except Unit (Option String)
  | .str s => .ok (some (escapeSQ s))
  | .null => .ok none
  | _ => .error ()

/-- `doc['<x>']` script fragment. -/
def docRef (x : String) : String := "doc[" ++ sqStr ++ x ++ sqStr ++ "]"

/-- `textFunctionMap` from `defaultRuleProcessorElasticSearch.ts`. -/
def textFunctionMap : String → Option String
  | "beginsWith" => some "startsWith"
  | "doesNotContain" => some "contains"
  | "doesNotBeginWith" => some "startsWith"
  | "doesNotEndWith" => some "endsWith"
  | _ => none

/-- `getTextScript` from `defaultRuleProcessorElasticSearch.ts`. -/
def getTextScript (f o v : String) : String :=
  let fn := (textFunctionMap o).getD o
  let script := docRef f ++ "." ++ fn ++ "(" ++ docRef v ++ ")"
  if strStartsWith o "d" then "!" ++ script else script

/-- The test `/^(does)?not/i.test(op)` from `negateIfNotOp`. -/
def negTest (op : String) : Bool :=
  let l := lowerStr op
  strStartsWith l "not" || strStartsWith l "doesnot"

/-- `rangeOperatorMap` from `defaultRuleProcessorElasticSearch.ts` (the
empty-string default is unreachable: the map is only consulted for the four
range operators). -/
def rangeOperatorMap : String → String
  | "<" => "lt"
  | "<=" => "lte"
  | ">" => "gt"
  | ">=" => "gte"
  | _ => ""

/-- The Elasticsearch fragments produced by the rule processor, mirroring
the `ElasticSearchQuery | ElasticSearchRule` union of the source. -/
inductive ESNode where
  | scriptFilter (script : String)
  | range (field key : String) (v : JsVal)
  | rangeGteLte (field : String) (gte lte : JsVal)
  | term (field : String) (v : JsVal)
  | existsField (field : String)
  | regexp (field : String) (v : JsVal)
  | boolMustNot (q : ESNode)
  | boolMustNotArr (qs : List ESNode)
  | boolShould (qs : List ESNode)

/-- `negateIfNotOp` from `defaultRuleProcessorElasticSearch.ts`. -/
def negateIfNotOp (op : String) (node : ESNode) : ESNode :=
  if negTest op then .boolMustNot node else node

/-- A rule (`RuleType`): `field`, `operator`, `value`, optional
`valueSource`. -/
structure Rule where
  field : String
  operator : String
  value : JsVal
  valueSource : Option String

/-- The comparison-operator arm of the `valueSource === 'field'` switch
(lines 70-89 of the source): emits a scripted field-to-field comparison,
with `=` rendered as `==`; a falsy escaped value yields `false`. -/
def esCompareField (f op : String) (value : JsVal) : Except Unit (Option ESNode) :=
  let opForScript := if op = "=" then "==" else op
  match escapeSQVal value with
  | .error e => .error e
  | .ok none => .ok none
  | .ok (some v) =>
      if v = "" then .ok none
      else .ok (some (.scriptFilter
        (docRef (escapeSQ f) ++ " " ++ opForScript ++ " " ++ docRef v)))

/-- The `in`/`notIn` arm of the `valueSource === 'field'` switch
(lines 91-101 of the source). -/
def esInField (f op : String) (value : JsVal) : Except Unit (Option ESNode) :=
  let valueAsArray := toArray value
  if valueAsArray.length > 0 then
    let arr := valueAsArray.map (fun v =>
      ESNode.scriptFilter (docRef (escapeSQ f) ++ " == " ++ docRef (jsTemplate v)))
    .ok (some (if op = "in" then .boolShould arr else .boolMustNotArr arr))
  else .ok none

/-- The `between`/`notBetween` arm of the `valueSource === 'field'` switch
(lines 103-115 of the source): requires at least two truthy values. -/
def esBetweenField (f op : String) (value : JsVal) : Except Unit (Option ESNode) :=
  match toArray value with
  | v0 :: v1 :: _ =>
      if jsTruthy v0 && jsTruthy v1 then
        let script := docRef (escapeSQ f) ++ " >= " ++ docRef (jsTemplate v0) ++
          " && " ++ docRef (escapeSQ f) ++ " <= " ++ docRef (jsTemplate v1)
        .ok (some (.scriptFilter (if op = "notBetween" then "!(" ++ script ++ ")" else script)))
      else .ok none
  | _ => .ok none

/-- The text-operator arm of the `valueSource === 'field'` switch
(lines 117-135 of the source). -/
def esTextField (f op : String) (value : JsVal) : Except Unit (Option ESNode) :=
  match escapeSQVal value with
  | .error e => .error e
  | .ok none => .ok none
  | .ok (some v) =>
      if v = "" then .ok none
      else .ok (some (.scriptFilter (getTextScript (escapeSQ f) op v)))

/-- The `valueRenderer` closure (lines 139-140 of the source): if the rule's
whole `value` is a boolean it is returned as-is; otherwise a value passing
`shouldRenderAsNumber` is `parseFloat`-ed, and anything else is unchanged. -/
def valueRenderer (value v : JsVal) (parseNumbers : Bool) : JsVal :=
  match value with
  | .bool b => .bool b
  | _ => if shouldRenderAsNumber v parseNumbers then .num (parseFloatV v) else v

/-- The literal-value section of the processor (lines 139-216 of the
source): the switch on `operator` shared by `valueSource === 'value'` rules
and by field-source rules whose operator misses the first switch. Returns
`none` for the source's `false` (the "omit this rule" signal). -/
def esLiteral (r : Rule) (parseNumbers : Bool) : Option ESNode :=
  match r.operator with
  | "<" | "<=" | ">" | ">=" =>
      some (.range r.field (rangeOperatorMap r.operator) (valueRenderer r.value r.value parseNumbers))
  | "=" => some (.term r.field (valueRenderer r.value r.value parseNumbers))
  | "!=" => some (.boolMustNot (.term r.field (valueRenderer r.value r.value parseNumbers)))
  | "null" => some (.boolMustNot (.existsField r.field))
  | "notNull" => some (.existsField r.field)
  | "in" | "notIn" =>
      let valueAsArray := (toArray r.value).map (fun v => valueRenderer r.value v parseNumbers)
      if valueAsArray.length > 0 then
        let arr := valueAsArray.map (fun v => ESNode.term r.field (valueRenderer r.value v parseNumbers))
        some (if r.operator = "in" then .boolShould arr else .boolMustNotArr arr)
      else none
  | "between" | "notBetween" =>
      match toArray r.value with
      | v0 :: v1 :: _ =>
          if isValidValue v0 && isValidValue v1 then
            let bounds :=
              if shouldRenderAsNumber v0 true && shouldRenderAsNumber v1 true then
                let firstNum := parseFloatV v0
                let secondNum := parseFloatV v1
                if secondNum < firstNum then (JsVal.num secondNum, JsVal.num firstNum)
                else (JsVal.num firstNum, JsVal.num secondNum)
              else (v0, v1)
            some (negateIfNotOp r.operator (.rangeGteLte r.field bounds.1 bounds.2))
          else none
      | _ => none
  | "contains" | "doesNotContain" =>
      some (negateIfNotOp r.operator (.regexp r.field r.value))
  | "beginsWith" | "doesNotBeginWith" =>
      some (negateIfNotOp r.operator (.regexp r.field (.str ("^" ++ jsTemplate r.value))))
  | "endsWith" | "doesNotEndWith" =>
      some (negateIfNotOp r.operator (.regexp r.field (.str (jsTemplate r.value ++ "$"))))
  | _ => none

/-- `defaultRuleProcessorElasticSearch`: the full processor. A rule with
`valueSource: 'field'` first bails out (`false`, here `.ok none`) when some
element of the value viewed as an array is not a string, then dispatches on
the operator; operators missing that switch fall through to the
literal-value section, exactly as in the source. `Except.error` models a
thrown `TypeError`. -/
def defaultRuleProcessorElasticSearch (r : Rule) (parseNumbers : Bool) :
    Except Unit (Option ESNode) :=
  if r.valueSource = some "field" then
    if (toArray r.value).any (fun v => !isStrB v) then .ok none
    else
      match r.operator with
      | "=" | "!=" | ">" | ">=" | "<" | "<=" => esCompareField r.field r.operator r.value
      | "in" | "notIn" => esInField r.field r.operator r.value
      | "between" | "notBetween" => esBetweenField r.field r.operator r.value
      | "contains" | "doesNotContain" | "beginsWith" | "doesNotBeginWith"
      | "endsWith" | "doesNotEndWith" => esTextField r.field r.operator r.value
      | _ => .ok (esLiteral r parseNumbers)
  else .ok (esLiteral r parseNumbers)

/-- The operators the Elasticsearch rule processor handles; any other
operator makes it return `false`. -/
def esSupportedOperators : List String :=
  ["=", "!=", "<", "<=", ">", ">=", "null", "notNull", "in", "notIn",
   "between", "notBetween", "contains", "doesNotContain", "beginsWith",
   "doesNotBeginWith", "endsWith", "doesNotEndWith"]

/-! ### Helper lemmas about the Elasticsearch processor embedding -/

theorem escapeChar_ne_nil (c : Char) : escapeChar c ≠ [] := by
  unfold escapeChar
  split <;> simp

theorem escapeSQ_ne_empty {s : String} (h : s ≠ "") : escapeSQ s ≠ "" := by
  obtain ⟨data⟩ := s
  cases data with
  | nil => exact absurd rfl h
  | cons c cs =>
      intro he
      have hd : escapeChar c ++ cs.foldr (fun c acc => escapeChar c ++ acc) [] = [] :=
        String.ext_iff.mp he
      exact escapeChar_ne_nil c (List.append_eq_nil.mp hd).1

theorem toArray_str_no_nonstring (s : String) :
    (toArray (.str s)).any (fun v => !isStrB v) = false := by
  simp [toArray, List.any_map, Function.comp, isStrB]

theorem shouldRenderAsNumber_valid {v : JsVal}
    (h : shouldRenderAsNumber v true = true) : isValidValue v = true := by
  cases v with
  | str s =>
      simp only [shouldRenderAsNumber, Bool.true_and] at h
      simp only [isValidValue, ne_eq, decide_eq_true_eq]
      intro hs
      subst hs
      simp [numericRegexB] at h
  | _ => simp [isValidValue]

/-! ### Claims about the Elasticsearch rule processor -/

/-- C3: for a rule with `valueSource: 'field'`, a non-empty string value and
one of the six comparison operators, the processor returns the scripted
field-to-field comparison `doc['<field>'] <op> doc['<value>']` (with `=`
rendered as `==`, and quote/backslash escaping applied), never a
literal-value `term`/`range` fragment. -/
theorem es_field_source_comparison_scripted (f op s : String) (pn : Bool)
    (hs : s ≠ "") (hop : op ∈ (["=", "!=", "<", "<=", ">", ">="] : List String)) :
    defaultRuleProcessorElasticSearch ⟨f, op, .str s, some "field"⟩ pn
      = .ok (some (.scriptFilter (docRef (escapeSQ f) ++ " " ++
          (if op = "=" then "==" else op) ++ " " ++ docRef (escapeSQ s)))) := by
  have hne := escapeSQ_ne_empty hs
  fin_cases hop <;>
    simp [defaultRuleProcessorElasticSearch, toArray_str_no_nonstring,
      esCompareField, escapeSQVal, hne]

theorem es_field_source_comparison_scripted_witness :
    defaultRuleProcessorElasticSearch ⟨"f1", "=", .str "f2", some "field"⟩ false
      = .ok (some (.scriptFilter (docRef (escapeSQ "f1") ++ " " ++ "==" ++ " " ++
          docRef (escapeSQ "f2")))) := by
  have h := es_field_source_comparison_scripted "f1" "=" "f2" false
    (by decide) (by simp)
  simpa using h

/-- C10: a rule with `valueSource: 'field'` whose value, viewed as an array,
contains an element that is not a string, is omitted (`false`, embedded as
`.ok none`) before any scripted comparison is emitted. -/
theorem es_field_source_nonstring_bailout (r : Rule) (pn : Bool)
    (hvs : r.valueSource = some "field")
    (h : (toArray r.value).any (fun v => !isStrB v) = true) :
    defaultRuleProcessorElasticSearch r pn = .ok none := by
  simp [defaultRuleProcessorElasticSearch, hvs, h]

theorem es_field_source_nonstring_bailout_witness :
    defaultRuleProcessorElasticSearch ⟨"f1", "=", .num 3, some "field"⟩ false
      = .ok none :=
  es_field_source_nonstring_bailout ⟨"f1", "=", .num 3, some "field"⟩ false rfl
    (by simp [toArray, isStrB])

theorem esLiteral_unsupported (r : Rule) (pn : Bool)
    (h : esSupportedOperators.contains r.operator = false) :
    esLiteral r pn = none := by
  unfold esLiteral
  split <;> simp_all [esSupportedOperators]

theorem esLiteral_in_empty (r : Rule) (pn : Bool)
    (hop : r.operator = "in" ∨ r.operator = "notIn")
    (hta : toArray r.value = []) :
    esLiteral r pn = none := by
  rcases hop with hop | hop <;> simp [esLiteral, hop, hta]

theorem esLiteral_between_invalid (r : Rule) (pn : Bool)
    (hop : r.operator = "between" ∨ r.operator = "notBetween")
    (hval : ∀ v0 v1 rest, toArray r.value = v0 :: v1 :: rest →
      isValidValue v0 = false ∨ isValidValue v1 = false) :
    esLiteral r pn = none := by
  rcases hop with hop | hop <;>
  · simp only [esLiteral, hop]
    match hta : toArray r.value with
    | [] => simp
    | [v0] => simp
    | v0 :: v1 :: rest =>
        rcases hval v0 v1 rest hta with h | h <;> simp [h]

theorem es_processor_unsupported (r : Rule) (pn : Bool)
    (h : esSupportedOperators.contains r.operator = false) :
    defaultRuleProcessorElasticSearch r pn = .ok none := by
  have hl := esLiteral_unsupported r pn h
  unfold defaultRuleProcessorElasticSearch
  split
  · split
    · rfl
    · split <;> simp_all [esSupportedOperators]
  · simp [hl]

theorem es_processor_in_empty (r : Rule) (pn : Bool)
    (hop : r.operator = "in" ∨ r.operator = "notIn")
    (hta : toArray r.value = []) :
    defaultRuleProcessorElasticSearch r pn = .ok none := by
  have hl := esLiteral_in_empty r pn hop hta
  obtain ⟨f, op, v, vs⟩ := r
  simp only at hta hl
  by_cases hvs : vs = some "field" <;>
    rcases hop with hop | hop <;>
      simp_all [defaultRuleProcessorElasticSearch, esInField, hta]

theorem es_processor_between_invalid (r : Rule) (pn : Bool)
    (hop : r.operator = "between" ∨ r.operator = "notBetween")
    (hvs : r.valueSource ≠ some "field")
    (hval : ∀ v0 v1 rest, toArray r.value = v0 :: v1 :: rest →
      isValidValue v0 = false ∨ isValidValue v1 = false) :
    defaultRuleProcessorElasticSearch r pn = .ok none := by
  have hl := esLiteral_between_invalid r pn hop hval
  simp [defaultRuleProcessorElasticSearch, hvs, hl]

/-- C4: rules the Elasticsearch processor cannot render are omitted, never
thrown: an operator outside the supported set yields the omission signal
(`false`, embedded as `.ok none`), as do `in`/`notIn` rules whose value
array is empty and (non-field-source) `between`/`notBetween` rules lacking
two valid values. `Except.error`, the model of a thrown exception, is never
produced in these cases. -/
theorem es_error_rules_omitted_not_thrown :
    (∀ (r : Rule) (pn : Bool), esSupportedOperators.contains r.operator = false →
      defaultRuleProcessorElasticSearch r pn = .ok none) ∧
    (∀ (r : Rule) (pn : Bool), r.operator = "in" ∨ r.operator = "notIn" →
      toArray r.value = [] →
      defaultRuleProcessorElasticSearch r pn = .ok none) ∧
    (∀ (r : Rule) (pn : Bool), r.operator = "between" ∨ r.operator = "notBetween" →
      r.valueSource ≠ some "field" →
      (∀ v0 v1 rest, toArray r.value = v0 :: v1 :: rest →
        isValidValue v0 = false ∨ isValidValue v1 = false) →
      defaultRuleProcessorElasticSearch r pn = .ok none) :=
  ⟨es_processor_unsupported, es_processor_in_empty, es_processor_between_invalid⟩

theorem es_error_rules_omitted_not_thrown_witness :
    defaultRuleProcessorElasticSearch ⟨"f1", "someUnknownOp", .str "x", none⟩ true
        = .ok none ∧
    defaultRuleProcessorElasticSearch ⟨"f1", "in", .null, none⟩ true = .ok none ∧
    defaultRuleProcessorElasticSearch
        ⟨"f1", "between", .arr [.str "", .str "9"], none⟩ true = .ok none :=
  ⟨es_error_rules_omitted_not_thrown.1 ⟨"f1", "someUnknownOp", .str "x", none⟩ true
      (by decide),
   es_error_rules_omitted_not_thrown.2.1 ⟨"f1", "in", .null, none⟩ true
      (Or.inl rfl) rfl,
   es_error_rules_omitted_not_thrown.2.2 ⟨"f1", "between", .arr [.str "", .str "9"], none⟩
      true (Or.inl rfl) (by simp)
      (by intro v0 v1 rest h
          simp only [toArray] at h
          injection h with h0 h
          exact Or.inl (h0 ▸ rfl))⟩

/-- C8: with `parseNumbers` set, a (non-field-source) string value passing
the numeric-literal test is rendered in the emitted `range`/`term` fragment
as the number `parseFloat` yields for it, and a string failing the test is
rendered unchanged. -/
theorem es_parse_numbers_numeric_rendering (f s : String) (vs : Option String)
    (hvs : vs ≠ some "field") :
    (∀ op, op ∈ (["<", "<=", ">", ">="] : List String) →
      defaultRuleProcessorElasticSearch ⟨f, op, .str s, vs⟩ true
        = .ok (some (.range f (rangeOperatorMap op)
            (if numericRegexB s then .num (parseFloatQ s) else .str s)))) ∧
    defaultRuleProcessorElasticSearch ⟨f, "=", .str s, vs⟩ true
      = .ok (some (.term f
          (if numericRegexB s then .num (parseFloatQ s) else .str s))) := by
  constructor
  · intro op hop
    fin_cases hop <;>
      by_cases hn : numericRegexB s <;>
        simp [defaultRuleProcessorElasticSearch, hvs, esLiteral, valueRenderer,
          shouldRenderAsNumber, parseFloatV, rangeOperatorMap, hn]
  · by_cases hn : numericRegexB s <;>
      simp [defaultRuleProcessorElasticSearch, hvs, esLiteral, valueRenderer,
        shouldRenderAsNumber, parseFloatV, hn]

theorem es_parse_numbers_numeric_rendering_witness :
    defaultRuleProcessorElasticSearch ⟨"age", "<", .str "21.5", none⟩ true
        = .ok (some (.range "age" (rangeOperatorMap "<")
            (if numericRegexB "21.5" then .num (parseFloatQ "21.5")
             else .str "21.5"))) ∧
    defaultRuleProcessorElasticSearch ⟨"age", "=", .str "x1", none⟩ true
        = .ok (some (.term "age"
            (if numericRegexB "x1" then .num (parseFloatQ "x1")
             else .str "x1"))) :=
  ⟨(es_parse_numbers_numeric_rendering "age" "21.5" none (by simp)).1 "<" (by simp),
   (es_parse_numbers_numeric_rendering "age" "x1" none (by simp)).2⟩

/-- C9: a (non-field-source) `between`/`notBetween` rule whose first two
values are valid and pass the numeric test (checked with `true`, independent
of the `parseNumbers` option) emits a range whose `gte` bound is the smaller
and whose `lte` bound is the larger of the two parsed numbers, wrapped in
`must_not` exactly for `notBetween`. -/
theorem es_between_numeric_bounds_sorted (r : Rule) (pn : Bool)
    (v0 v1 : JsVal) (rest : List JsVal)
    (hvs : r.valueSource ≠ some "field")
    (hop : r.operator = "between" ∨ r.operator = "notBetween")
    (hta : toArray r.value = v0 :: v1 :: rest)
    (hn0 : shouldRenderAsNumber v0 true = true)
    (hn1 : shouldRenderAsNumber v1 true = true) :
    defaultRuleProcessorElasticSearch r pn
      = .ok (some ((if r.operator = "notBetween" then ESNode.boolMustNot else id)
          (.rangeGteLte r.field
            (.num (min (parseFloatV v0) (parseFloatV v1)))
            (.num (max (parseFloatV v0) (parseFloatV v1)))))) := by
  have hv0 := shouldRenderAsNumber_valid hn0
  have hv1 := shouldRenderAsNumber_valid hn1
  have hneg1 : negTest "between" = false := by decide
  have hneg2 : negTest "notBetween" = true := by decide
  rcases hop with hop | hop <;>
  · by_cases hlt : parseFloatV v1 < parseFloatV v0
    · simp [defaultRuleProcessorElasticSearch, hvs, esLiteral, hop, hta,
        hv0, hv1, hn0, hn1, hlt, negateIfNotOp, hneg1, hneg2,
        min_eq_right hlt.le, max_eq_left hlt.le]
    · have hle := not_lt.mp hlt
      simp [defaultRuleProcessorElasticSearch, hvs, esLiteral, hop, hta,
        hv0, hv1, hn0, hn1, hlt, negateIfNotOp, hneg1, hneg2,
        min_eq_left hle, max_eq_right hle]

theorem es_between_numeric_bounds_sorted_witness :
    defaultRuleProcessorElasticSearch ⟨"age", "between", .str "12,5", none⟩ false
      = .ok (some ((if "between" = "notBetween" then ESNode.boolMustNot else id)
          (.rangeGteLte "age"
            (.num (min (parseFloatV (.str "12")) (parseFloatV (.str "5"))))
            (.num (max (parseFloatV (.str "12")) (parseFloatV (.str "5"))))))) :=
  es_between_numeric_bounds_sorted ⟨"age", "between", .str "12,5", none⟩ false
    (.str "12") (.str "5") [] (by simp) (Or.inl rfl) rfl (by decide) (by decide)

/-! ### The two tree shapes and the structural operations

The implementations of `add`/`remove`/`update`/`move` (`queryTools`),
`convertQuery` and `formatQuery` are not under `src/`; they are modelled
from the specification (sections 4.2, 4.4 and 6) and from the documented
behavior in `website/docs/utils/misc.mdx`, which is under `src/`. -/

/-- A node of an independent-combinator (IC) tree: a rule, a combinator
string slot, or a nested group (`rules` plus the `not` flag). A group's
`rules` array may syntactically contain any mix; well-formedness of the
alternation is the predicate `wfIC` below. -/
inductive ICNode where
  | rule (r : Rule)
  | comb (c : String)
  | group (rules : List ICNode) (negate : Bool)

/-- True for the rule/group elements of an IC `rules` array, false for the
combinator string slots. -/
def isNodeB : ICNode → Bool
  | .comb _ => false
  | _ => true

/-- The alternation shape of an IC `rules` array, abstracted to the list of
`isNodeB` values: empty, or node, combinator, node, …, node. -/
def altShape : List Bool → Bool
  | [] => true
  | [b] => b
  | b :: b2 :: rest => b && !b2 && !rest.isEmpty && altShape rest

mutual

/-- Well-formedness of an IC tree: every group's `rules` array alternates
node, combinator, …, node (length 0 or odd), recursively. -/
def wfIC : ICNode → Bool
  | .rule _ => true
  | .comb _ => true
  | .group rs _ => altShape (rs.map isNodeB) && wfICList rs

/-- Well-formedness of every element of an IC `rules` array. -/
def wfICList : List ICNode → Bool
  | [] => true
  | x :: xs => wfIC x && wfICList xs

end

/-- `findPath` (spec section 6): descend the tree by child indices. For IC
trees an index addresses a raw `rules` slot, combinator slots included. -/
def findPath : ICNode → List Nat → Option ICNode
  | t, [] => some t
  | .group rs _, i :: rest =>
      match rs.get? i with
      | some child => findPath child rest
      | none => none
  | _, _ :: _ => none

/-- Modelled from the spec (section 4.2 `add`; `queryTools` is not under
`src/`): descend to the group addressed by `path` and append the new item,
inserting a default combinator (`"and"`, the first default combinator)
before it when the group is non-empty. `none` when the path does not
address a group. -/
def addGo (rs : List ICNode) (path : List Nat) (item : ICNode) :
    Option (List ICNode) :=
  match path with
  | [] => some (if rs.isEmpty then [item] else rs ++ [.comb "and", item])
  | i :: rest =>
      match rs.get? i with
      | some (.group inner negate) =>
          match addGo inner rest item with
          | some inner2 => some (rs.set i (.group inner2 negate))
          | none => none
      | _ => none

/-- `add` on an IC tree: a failed descent leaves the tree unchanged. -/
def icAdd (t : ICNode) (item : ICNode) (path : List Nat) : ICNode :=
  match t with
  | .group rs negate =>
      match addGo rs path item with
      | some rs2 => .group rs2 negate
      | none => t
  | _ => t

/-- Delete element `i` of a `rules` array together with the adjacent
combinator slot: deleting the first element removes the following
combinator, deleting any other element removes the preceding one
(spec section 4.2 `remove`). -/
def removeAt {α : Type} (l : List α) (i : Nat) : List α :=
  if i = 0 then l.drop 2 else l.take (i - 1) ++ l.drop (i + 1)

/-- Modelled from the spec (section 4.2 `remove`): descend to the parent of
`path` and delete the addressed element, which must be a rule or group.
`none` when the path does not resolve to one. -/
def removeGo (rs : List ICNode) (path : List Nat) : Option (List ICNode) :=
  match path with
  | [] => none
  | [i] =>
      match rs.get? i with
      | some x => if isNodeB x then some (removeAt rs i) else none
      | none => none
  | i :: j :: rest =>
      match rs.get? i with
      | some (.group inner negate) =>
          match removeGo inner (j :: rest) with
          | some inner2 => some (rs.set i (.group inner2 negate))
          | none => none
      | _ => none

/-- `remove` on an IC tree: a failed descent (and the root path) leaves the
tree unchanged. -/
def icRemove (t : ICNode) (path : List Nat) : ICNode :=
  match t with
  | .group rs negate =>
      match removeGo rs path with
      | some rs2 => .group rs2 negate
      | none => t
  | _ => t

/-- Modelled from the spec (section 4.2 `update`, with the default reset
callbacks): apply a property change to one node. Changing `field` resets
`operator` and `value` to the model defaults (`resetOnFieldChange` defaults
to true); addressing a combinator slot replaces the combinator string. -/
def applyPropIC (t : ICNode) (prop : String) (v : JsVal) : ICNode :=
  match t with
  | .rule r =>
      match prop with
      | "field" => .rule ⟨jsTemplate v, "=", .str "", r.valueSource⟩
      | "operator" => .rule ⟨r.field, jsTemplate v, r.value, r.valueSource⟩
      | "value" => .rule ⟨r.field, r.operator, v, r.valueSource⟩
      | "valueSource" => .rule ⟨r.field, r.operator, r.value, some (jsTemplate v)⟩
      | _ => .rule r
  | .comb _ => .comb (jsTemplate v)
  | .group rs negate =>
      match prop with
      | "not" => .group rs (jsTruthy v)
      | _ => .group rs negate

/-- Descend to the element addressed by `path` and update it in place;
`none` when the path does not resolve. -/
def updateGo (rs : List ICNode) (path : List Nat) (prop : String) (v : JsVal) :
    Option (List ICNode) :=
  match path with
  | [] => none
  | [i] =>
      match rs.get? i with
      | some x => some (rs.set i (applyPropIC x prop v))
      | none => none
  | i :: j :: rest =>
      match rs.get? i with
      | some (.group inner negate) =>
          match updateGo inner (j :: rest) prop v with
          | some inner2 => some (rs.set i (.group inner2 negate))
          | none => none
      | _ => none

/-- `update` on an IC tree: the empty path updates the root, a failed
descent leaves the tree unchanged. -/
def icUpdate (t : ICNode) (prop : String) (v : JsVal) (path : List Nat) : ICNode :=
  match path with
  | [] => applyPropIC t prop v
  | _ =>
      match t with
      | .group rs negate =>
          match updateGo rs path prop v with
          | some rs2 => .group rs2 negate
          | none => t
      | _ => t

/-- Modelled from the spec (section 4.2 `move`): a no-op when the source
path is the root (so `clone` at the root is a no-op), does not resolve to a
rule/group, or is a prefix of the target path (moving a node into its own
subtree would create a cycle). Otherwise the node is removed (kept, when
cloning) and re-inserted at the parent group of `newPath`, resolved against
the post-removal tree, with the combinator bookkeeping of combined
remove+add; if that group no longer resolves the original tree is
returned. -/
def icMove (t : ICNode) (oldPath newPath : List Nat) (clone : Bool) : ICNode :=
  if oldPath.isEmpty then t
  else if List.isPrefixOf oldPath newPath then t
  else
    match findPath t oldPath with
    | none => t
    | some item =>
        if isNodeB item then
          match (if clone then t else icRemove t oldPath) with
          | .group rs negate =>
              match addGo rs newPath.dropLast item with
              | some rs2 => .group rs2 negate
              | none => t
          | _ => t
        else t

/-- One structural edit of an IC tree, as in C1's operation sequences. -/
inductive ICOp where
  | add (item : ICNode) (path : List Nat)
  | remove (path : List Nat)
  | move (oldPath newPath : List Nat) (clone : Bool)

/-- Apply one operation. -/
def applyOp (t : ICNode) : ICOp → ICNode
  | .add item path => icAdd t item path
  | .remove path => icRemove t path
  | .move o n c => icMove t o n c

/-- Apply a finite sequence of operations, left to right. -/
def applyOps (ops : List ICOp) (t : ICNode) : ICNode := ops.foldl applyOp t

/-- An operation is well-formed when anything it adds is a well-formed rule
or group (never a bare combinator string) — the TypeScript signature of
`add` enforces exactly this. -/
def wfOpB : ICOp → Bool
  | .add item _ => isNodeB item && wfIC item
  | _ => true

/-- A node of a combinator-per-group tree (`RuleGroupType`): a rule, or a
group carrying its `combinator`, its `rules` and the `not` flag. -/
inductive GNode where
  | rule (r : Rule)
  | group (combinator : String) (rules : List GNode) (negate : Bool)

/-- `findPath` on a combinator-per-group tree. -/
def findPathG : GNode → List Nat → Option GNode
  | t, [] => some t
  | .group _ rs _, i :: rest =>
      match rs.get? i with
      | some child => findPathG child rest
      | none => none
  | _, _ :: _ => none

/-- Modelled from the spec (section 4.2 `add`): append the new item to the
group addressed by `path`; `none` when the path does not address a group. -/
def addGoG (rs : List GNode) (path : List Nat) (item : GNode) :
    Option (List GNode) :=
  match path with
  | [] => some (rs ++ [item])
  | i :: rest =>
      match rs.get? i with
      | some (.group c inner negate) =>
          match addGoG inner rest item with
          | some inner2 => some (rs.set i (.group c inner2 negate))
          | none => none
      | _ => none

/-- `add` on a combinator-per-group tree. -/
def gAdd (t : GNode) (item : GNode) (path : List Nat) : GNode :=
  match t with
  | .group c rs negate =>
      match addGoG rs path item with
      | some rs2 => .group c rs2 negate
      | none => t
  | _ => t

/-- Modelled from the spec (section 4.2 `remove`): delete the addressed
child; `none` when the path does not resolve. -/
def removeGoG (rs : List GNode) (path : List Nat) : Option (List GNode) :=
  match path with
  | [] => none
  | [i] =>
      match rs.get? i with
      | some _ => some (rs.take i ++ rs.drop (i + 1))
      | none => none
  | i :: j :: rest =>
      match rs.get? i with
      | some (.group c inner negate) =>
          match removeGoG inner (j :: rest) with
          | some inner2 => some (rs.set i (.group c inner2 negate))
          | none => none
      | _ => none

/-- `remove` on a combinator-per-group tree. -/
def gRemove (t : GNode) (path : List Nat) : GNode :=
  match t with
  | .group c rs negate =>
      match removeGoG rs path with
      | some rs2 => .group c rs2 negate
      | none => t
  | _ => t

/-- Modelled from the spec (section 4.2 `update`, default reset callbacks):
apply a property change to one node of a combinator-per-group tree. -/
def applyPropG (t : GNode) (prop : String) (v : JsVal) : GNode :=
  match t with
  | .rule r =>
      match prop with
      | "field" => .rule ⟨jsTemplate v, "=", .str "", r.valueSource⟩
      | "operator" => .rule ⟨r.field, jsTemplate v, r.value, r.valueSource⟩
      | "value" => .rule ⟨r.field, r.operator, v, r.valueSource⟩
      | "valueSource" => .rule ⟨r.field, r.operator, r.value, some (jsTemplate v)⟩
      | _ => .rule r
  | .group c rs negate =>
      match prop with
      | "combinator" => .group (jsTemplate v) rs negate
      | "not" => .group c rs (jsTruthy v)
      | _ => .group c rs negate

/-- Descend and update in place; `none` when the path does not resolve. -/
def updateGoG (rs : List GNode) (path : List Nat) (prop : String) (v : JsVal) :
    Option (List GNode) :=
  match path with
  | [] => none
  | [i] =>
      match rs.get? i with
      | some x => some (rs.set i (applyPropG x prop v))
      | none => none
  | i :: j :: rest =>
      match rs.get? i with
      | some (.group c inner negate) =>
          match updateGoG inner (j :: rest) prop v with
          | some inner2 => some (rs.set i (.group c inner2 negate))
          | none => none
      | _ => none

/-- `update` on a combinator-per-group tree. -/
def gUpdate (t : GNode) (prop : String) (v : JsVal) (path : List Nat) : GNode :=
  match path with
  | [] => applyPropG t prop v
  | _ =>
      match t with
      | .group c rs negate =>
          match updateGoG rs path prop v with
          | some rs2 => .group c rs2 negate
          | none => t
      | _ => t

/-- Modelled from the spec (section 4.2 `move`), exactly as `icMove` but on
the combinator-per-group shape (no combinator bookkeeping needed). -/
def gMove (t : GNode) (oldPath newPath : List Nat) (clone : Bool) : GNode :=
  if oldPath.isEmpty then t
  else if List.isPrefixOf oldPath newPath then t
  else
    match findPathG t oldPath with
    | none => t
    | some item =>
        match (if clone then t else gRemove t oldPath) with
        | .group c rs negate =>
            match addGoG rs newPath.dropLast item with
            | some rs2 => .group c rs2 negate
            | none => t
        | _ => t

/-- `isAncestor` (spec section 4.1): `a` is a strict prefix of `b`. -/
def isAncestor (a b : List Nat) : Bool :=
  List.isPrefixOf a b && a.length < b.length

mutual

/-- Modelled from the spec (`convertToIC`, documented in `misc.mdx` but not
under `src/`): turn a combinator-per-group tree into an IC tree by
interleaving each group's combinator between its converted children. -/
def convertToIC : GNode → ICNode
  | .rule r => .rule r
  | .group c rules negate => .group (toICList c rules) negate

/-- Interleave the parent combinator between converted children. -/
def toICList (c : String) : List GNode → List ICNode
  | [] => []
  | [x] => [convertToIC x]
  | x :: y :: rest => convertToIC x :: .comb c :: toICList c (y :: rest)

end

/-- The combinator strings appearing in an IC `rules` array. -/
def combsOf (rs : List ICNode) : List String :=
  rs.filterMap (fun x =>
    match x with
    | .comb c => some c
    | _ => none)

/-- The first combinator of an IC `rules` array, defaulting to `"and"`. -/
def firstCombD (rs : List ICNode) : String := (combsOf rs).headD "and"

mutual

/-- Modelled from the spec (`convertFromIC`, documented in `misc.mdx` but
not under `src/`): turn an IC tree back into a combinator-per-group tree;
the group combinator is the first combinator slot of the `rules` array
(default `"and"`), and the combinator slots are dropped from the children.
The `comb` case is unreachable for well-formed input (the list walk skips
combinator slots). -/
def convertFromIC : ICNode → GNode
  | .rule r => .rule r
  | .comb _ => .rule ⟨"", "", .null, none⟩
  | .group rs negate => .group (firstCombD rs) (fromICList rs) negate

/-- Convert the node elements of an IC `rules` array, skipping the
combinator slots. -/
def fromICList : List ICNode → List GNode
  | [] => []
  | .comb _ :: rest => fromICList rest
  | .rule r :: rest => convertFromIC (.rule r) :: fromICList rest
  | .group rs negate :: rest => convertFromIC (.group rs negate) :: fromICList rest

end

/-- A query of either shape, the argument type of `convertQuery`. -/
inductive AnyQuery where
  | g (q : GNode)
  | ic (q : ICNode)

/-- `convertQuery` (documented in `misc.mdx`): toggle between the
combinator-per-group shape and the independent-combinator shape. -/
def convertQuery : AnyQuery → AnyQuery
  | .g q => .ic (convertToIC q)
  | .ic q => .g (convertFromIC q)

mutual

/-- Combinator-placement normal form of a combinator-per-group tree: the
combinator of a group with fewer than two children (where no combinator can
be placed between children in IC form) is the default `"and"`. -/
def normG : GNode → Bool
  | .rule _ => true
  | .group c rules _ => (decide (2 ≤ rules.length) || c = "and") && normGList rules

/-- `normG` for every element of a `rules` array. -/
def normGList : List GNode → Bool
  | [] => true
  | x :: xs => normG x && normGList xs

end

mutual

/-- Combinator-placement normal form of an IC tree: well-formed alternation
and, in each group, all combinator slots equal (a mixed-combinator group has
no combinator-per-group counterpart). -/
def normIC : ICNode → Bool
  | .rule _ => true
  | .comb _ => true
  | .group rs _ =>
      altShape (rs.map isNodeB) &&
        (combsOf rs).all (fun c => c = firstCombD rs) && normICList rs

/-- `normIC` for every element of a `rules` array. -/
def normICList : List ICNode → Bool
  | [] => true
  | x :: xs => normIC x && normICList xs

end

/-- Combinator-placement normal form for either query shape. An IC query
root is a rule or group, never a bare combinator string (the TypeScript
types allow combinator strings only inside a `rules` array). -/
def normalizedQuery : AnyQuery → Bool
  | .g q => normG q
  | .ic q => isNodeB q && normIC q

/-- The default SQL fallback expression (spec section 4.4). -/
def fallbackExpressionSql : String := "(1 = 1)"

/-- Modelled from the spec: rendering of a rule value as a SQL literal
(strings in single quotes with quotes doubled, numbers bare). -/
def sqlValue : JsVal → String
  | .str s => sqStr ++ String.mk (s.data.foldr
      (fun c acc => if c = sqChar then c :: c :: acc else c :: acc) []) ++ sqStr
  | .num q => toString q
  | .bool b => if b then "TRUE" else "FALSE"
  | .arr vs => joinWith ", " (jsTemplateList vs)
  | .null => "NULL"

mutual

/-- Modelled from the spec (section 4.4, `formatQuery` for the `sql`
format; the implementation is not under `src/`): a rule renders as
`field operator value` unless its field or operator is the placeholder
`"~"` (then it is skipped); a group renders its usable children joined by
its combinator inside parentheses, prefixed by `NOT` when negated, and
renders the fallback expression `(1 = 1)` when no usable children remain. -/
def formatSqlNode : GNode → String
  | .rule r =>
      if r.field = "~" || r.operator = "~" then ""
      else r.field ++ " " ++ r.operator ++ " " ++ sqlValue r.value
  | .group c rules negate =>
      let parts := sqlParts rules
      if parts.isEmpty then fallbackExpressionSql
      else (if negate then "NOT " else "") ++ "(" ++
        joinWith (" " ++ c ++ " ") parts ++ ")"

/-- Render the children of a group, dropping the skipped (empty) ones. -/
def sqlParts : List GNode → List String
  | [] => []
  | x :: xs =>
      let s := formatSqlNode x
      if s = "" then sqlParts xs else s :: sqlParts xs

end

/-- `formatQuery(query, {format: 'sql'})`, modelled from the spec. -/
def formatQuerySql (q : GNode) : String := formatSqlNode q

/-! ### C6 and C7 -/

/-- C6: `formatQuery({combinator: 'and', rules: []}, {format: 'sql'})`
returns exactly the SQL fallback expression `"(1 = 1)"`. -/
theorem formatQuery_empty_group_sql_fallback :
    formatQuerySql (.group "and" [] false) = "(1 = 1)" := rfl

/-- C7: for either tree shape, `move` with a source path that is a strict
prefix (ancestor) of the target path returns the tree unchanged, so a move
can never create a cycle. -/
theorem move_into_own_descendant_noop :
    (∀ (t : ICNode) (o n : List Nat) (c : Bool), isAncestor o n = true →
      icMove t o n c = t) ∧
    (∀ (t : GNode) (o n : List Nat) (c : Bool), isAncestor o n = true →
      gMove t o n c = t) := by
  constructor
  · intro t o n c h
    simp only [isAncestor, Bool.and_eq_true, decide_eq_true_eq] at h
    simp [icMove, h.1]
  · intro t o n c h
    simp only [isAncestor, Bool.and_eq_true, decide_eq_true_eq] at h
    simp [gMove, h.1]

theorem move_into_own_descendant_noop_witness :
    icMove (.group [.rule ⟨"a", "=", .str "1", none⟩] false) [0] [0, 0] false
      = .group [.rule ⟨"a", "=", .str "1", none⟩] false ∧
    gMove (.group "and" [.rule ⟨"a", "=", .str "1", none⟩] false) [0] [0, 0] true
      = .group "and" [.rule ⟨"a", "=", .str "1", none⟩] false :=
  ⟨move_into_own_descendant_noop.1 _ [0] [0, 0] false (by decide),
   move_into_own_descendant_noop.2 _ [0] [0, 0] true (by decide)⟩

/-! ### C2: invalid paths make every structural operation a no-op -/

theorem addGo_none_of_findPath_none :
    ∀ (path : List Nat) (rs : List ICNode) (negate : Bool) (item : ICNode),
      findPath (.group rs negate) path = none → addGo rs path item = none
  | [], rs, negate, item, h => by simp [findPath] at h
  | i :: rest, rs, negate, item, h => by
      simp only [findPath] at h
      simp only [addGo]
      cases hg : rs.get? i with
      | none => simp
      | some child =>
          rw [hg] at h
          cases child with
          | rule r => simp
          | comb c => simp
          | group inner negate2 =>
              have hrec := addGo_none_of_findPath_none rest inner negate2 item
                (by simpa using h)
              simp [hrec]

theorem removeGo_none_of_findPath_none :
    ∀ (path : List Nat) (rs : List ICNode) (negate : Bool),
      findPath (.group rs negate) path = none → removeGo rs path = none
  | [], rs, negate, h => by simp [removeGo]
  | [i], rs, negate, h => by
      simp only [findPath] at h
      simp only [removeGo]
      cases hg : rs.get? i with
      | none => simp
      | some child => rw [hg] at h; simp [findPath] at h
  | i :: j :: rest, rs, negate, h => by
      simp only [findPath] at h
      simp only [removeGo]
      cases hg : rs.get? i with
      | none => simp
      | some child =>
          rw [hg] at h
          cases child with
          | rule r => simp
          | comb c => simp
          | group inner negate2 =>
              have hrec := removeGo_none_of_findPath_none (j :: rest) inner negate2
                (by simpa using h)
              simp [hrec]

theorem updateGo_none_of_findPath_none :
    ∀ (path : List Nat) (rs : List ICNode) (negate : Bool) (prop : String) (v : JsVal),
      findPath (.group rs negate) path = none → updateGo rs path prop v = none
  | [], rs, negate, prop, v, h => by simp [updateGo]
  | [i], rs, negate, prop, v, h => by
      simp only [findPath] at h
      simp only [updateGo]
      cases hg : rs.get? i with
      | none => simp
      | some child => rw [hg] at h; simp [findPath] at h
  | i :: j :: rest, rs, negate, prop, v, h => by
      simp only [findPath] at h
      simp only [updateGo]
      cases hg : rs.get? i with
      | none => simp
      | some child =>
          rw [hg] at h
          cases child with
          | rule r => simp
          | comb c => simp
          | group inner negate2 =>
              have hrec := updateGo_none_of_findPath_none (j :: rest) inner negate2 prop v
                (by simpa using h)
              simp [hrec]

theorem addGoG_none_of_findPathG_none :
    ∀ (path : List Nat) (c : String) (rs : List GNode) (negate : Bool) (item : GNode),
      findPathG (.group c rs negate) path = none → addGoG rs path item = none
  | [], c, rs, negate, item, h => by simp [findPathG] at h
  | i :: rest, c, rs, negate, item, h => by
      simp only [findPathG] at h
      simp only [addGoG]
      cases hg : rs.get? i with
      | none => simp
      | some child =>
          rw [hg] at h
          cases child with
          | rule r => simp
          | group c2 inner negate2 =>
              have hrec := addGoG_none_of_findPathG_none rest c2 inner negate2 item
                (by simpa using h)
              simp [hrec]

theorem removeGoG_none_of_findPathG_none :
    ∀ (path : List Nat) (c : String) (rs : List GNode) (negate : Bool),
      findPathG (.group c rs negate) path = none → removeGoG rs path = none
  | [], c, rs, negate, h => by simp [removeGoG]
  | [i], c, rs, negate, h => by
      simp only [findPathG] at h
      simp only [removeGoG]
      cases hg : rs.get? i with
      | none => simp
      | some child => rw [hg] at h; simp [findPathG] at h
  | i :: j :: rest, c, rs, negate, h => by
      simp only [findPathG] at h
      simp only [removeGoG]
      cases hg : rs.get? i with
      | none => simp
      | some child =>
          rw [hg] at h
          cases child with
          | rule r => simp
          | group c2 inner negate2 =>
              have hrec := removeGoG_none_of_findPathG_none (j :: rest) c2 inner negate2
                (by simpa using h)
              simp [hrec]

theorem updateGoG_none_of_findPathG_none :
    ∀ (path : List Nat) (c : String) (rs : List GNode) (negate : Bool)
      (prop : String) (v : JsVal),
      findPathG (.group c rs negate) path = none → updateGoG rs path prop v = none
  | [], c, rs, negate, prop, v, h => by simp [updateGoG]
  | [i], c, rs, negate, prop, v, h => by
      simp only [findPathG] at h
      simp only [updateGoG]
      cases hg : rs.get? i with
      | none => simp
      | some child => rw [hg] at h; simp [findPathG] at h
  | i :: j :: rest, c, rs, negate, prop, v, h => by
      simp only [findPathG] at h
      simp only [updateGoG]
      cases hg : rs.get? i with
      | none => simp
      | some child =>
          rw [hg] at h
          cases child with
          | rule r => simp
          | group c2 inner negate2 =>
              have hrec := updateGoG_none_of_findPathG_none (j :: rest) c2 inner negate2
                prop v (by simpa using h)
              simp [hrec]

/-- C2: each of the four structural operations, on either tree shape, is a
no-op — returning the input tree unchanged, with no possibility of a thrown
exception (the operations are total functions) — whenever the supplied path
does not resolve to an existing node of the tree; and `move` with the root
as source (in particular `clone` of the root) is likewise a no-op. -/
theorem structural_ops_noop_on_invalid_path :
    (∀ (t : ICNode) (item : ICNode) (path : List Nat),
      findPath t path = none → icAdd t item path = t) ∧
    (∀ (t : ICNode) (path : List Nat),
      findPath t path = none → icRemove t path = t) ∧
    (∀ (t : ICNode) (prop : String) (v : JsVal) (path : List Nat),
      findPath t path = none → icUpdate t prop v path = t) ∧
    (∀ (t : ICNode) (o n : List Nat) (c : Bool),
      findPath t o = none → icMove t o n c = t) ∧
    (∀ (t : ICNode) (n : List Nat) (c : Bool), icMove t [] n c = t) ∧
    (∀ (t : GNode) (item : GNode) (path : List Nat),
      findPathG t path = none → gAdd t item path = t) ∧
    (∀ (t : GNode) (path : List Nat),
      findPathG t path = none → gRemove t path = t) ∧
    (∀ (t : GNode) (prop : String) (v : JsVal) (path : List Nat),
      findPathG t path = none → gUpdate t prop v path = t) ∧
    (∀ (t : GNode) (o n : List Nat) (c : Bool),
      findPathG t o = none → gMove t o n c = t) ∧
    (∀ (t : GNode) (n : List Nat) (c : Bool), gMove t [] n c = t) := by
  refine ⟨?_, ?_, ?_, ?_, ?_, ?_, ?_, ?_, ?_, ?_⟩
  · intro t item path h
    cases t with
    | group rs negate => simp [icAdd, addGo_none_of_findPath_none path rs negate item h]
    | rule r => simp [icAdd]
    | comb c => simp [icAdd]
  · intro t path h
    cases t with
    | group rs negate => simp [icRemove, removeGo_none_of_findPath_none path rs negate h]
    | rule r => simp [icRemove]
    | comb c => simp [icRemove]
  · intro t prop v path h
    cases path with
    | nil => simp [findPath] at h
    | cons i rest =>
        cases t with
        | group rs negate =>
            simp [icUpdate, updateGo_none_of_findPath_none (i :: rest) rs negate prop v h]
        | rule r => simp [icUpdate]
        | comb c => simp [icUpdate]
  · intro t o n c h
    simp [icMove, h]
  · intro t n c
    simp [icMove]
  · intro t item path h
    cases t with
    | group c rs negate => simp [gAdd, addGoG_none_of_findPathG_none path c rs negate item h]
    | rule r => simp [gAdd]
  · intro t path h
    cases t with
    | group c rs negate => simp [gRemove, removeGoG_none_of_findPathG_none path c rs negate h]
    | rule r => simp [gRemove]
  · intro t prop v path h
    cases path with
    | nil => simp [findPathG] at h
    | cons i rest =>
        cases t with
        | group c rs negate =>
            simp [gUpdate,
              updateGoG_none_of_findPathG_none (i :: rest) c rs negate prop v h]
        | rule r => simp [gUpdate]
  · intro t o n c h
    simp [gMove, h]
  · intro t n c
    simp [gMove]

theorem structural_ops_noop_on_invalid_path_witness :
    icAdd (.group [] false) (.rule ⟨"a", "=", .str "1", none⟩) [3] = .group [] false ∧
    icRemove (.group [] false) [3] = .group [] false ∧
    icUpdate (.group [] false) "value" (.str "x") [3] = .group [] false ∧
    icMove (.group [] false) [3] [] false = .group [] false ∧
    icMove (.group [] false) [] [0] true = .group [] false ∧
    gAdd (.group "and" [] false) (.rule ⟨"a", "=", .str "1", none⟩) [3]
      = .group "and" [] false ∧
    gRemove (.group "and" [] false) [3] = .group "and" [] false ∧
    gUpdate (.group "and" [] false) "value" (.str "x") [3] = .group "and" [] false ∧
    gMove (.group "and" [] false) [3] [] false = .group "and" [] false ∧
    gMove (.group "and" [] false) [] [0] true = .group "and" [] false :=
  ⟨structural_ops_noop_on_invalid_path.1 _ _ [3] rfl,
   structural_ops_noop_on_invalid_path.2.1 _ [3] rfl,
   structural_ops_noop_on_invalid_path.2.2.1 _ "value" (.str "x") [3] rfl,
   structural_ops_noop_on_invalid_path.2.2.2.1 _ [3] [] false rfl,
   structural_ops_noop_on_invalid_path.2.2.2.2.1 _ [0] true,
   structural_ops_noop_on_invalid_path.2.2.2.2.2.1 _ _ [3] rfl,
   structural_ops_noop_on_invalid_path.2.2.2.2.2.2.1 _ [3] rfl,
   structural_ops_noop_on_invalid_path.2.2.2.2.2.2.2.1 _ "value" (.str "x") [3] rfl,
   structural_ops_noop_on_invalid_path.2.2.2.2.2.2.2.2.1 _ [3] [] false rfl,
   structural_ops_noop_on_invalid_path.2.2.2.2.2.2.2.2.2 _ [0] true⟩

/-! ### C5: convertQuery is an involution modulo combinator placement -/

/-- Strong induction over a `GNode`, with the induction hypothesis for
every member of a group's `rules`. -/
def gnodeStrongInd {P : GNode → Prop}
    (hrule : ∀ r, P (.rule r))
    (hgroup : ∀ c rules negate, (∀ x ∈ rules, P x) → P (.group c rules negate)) :
    ∀ g, P g
  | .rule r => hrule r
  | .group c rules negate =>
      hgroup c rules negate (fun x hx => gnodeStrongInd hrule hgroup x)
termination_by g => sizeOf g
decreasing_by
  have := List.sizeOf_lt_of_mem hx
  simp only [GNode.group.sizeOf_spec]
  omega

/-- Strong induction over an `ICNode`, with the induction hypothesis for
every member of a group's `rules`. -/
def icnodeStrongInd {P : ICNode → Prop}
    (hrule : ∀ r, P (.rule r))
    (hcomb : ∀ c, P (.comb c))
    (hgroup : ∀ rules negate, (∀ x ∈ rules, P x) → P (.group rules negate)) :
    ∀ t, P t
  | .rule r => hrule r
  | .comb c => hcomb c
  | .group rules negate =>
      hgroup rules negate (fun x hx => icnodeStrongInd hrule hcomb hgroup x)
termination_by t => sizeOf t
decreasing_by
  have := List.sizeOf_lt_of_mem hx
  simp only [ICNode.group.sizeOf_spec]
  omega

theorem normGList_mem : ∀ {l : List GNode}, normGList l = true →
    ∀ x ∈ l, normG x = true
  | [], _, x, hx => absurd hx (List.not_mem_nil x)
  | y :: ys, h, x, hx => by
      simp only [normGList, Bool.and_eq_true] at h
      rcases List.mem_cons.mp hx with rfl | hx2
      · exact h.1
      · exact normGList_mem h.2 x hx2

theorem normICList_mem : ∀ {l : List ICNode}, normICList l = true →
    ∀ x ∈ l, normIC x = true
  | [], _, x, hx => absurd hx (List.not_mem_nil x)
  | y :: ys, h, x, hx => by
      simp only [normICList, Bool.and_eq_true] at h
      rcases List.mem_cons.mp hx with rfl | hx2
      · exact h.1
      · exact normICList_mem h.2 x hx2

theorem toIC_isNode (g : GNode) : isNodeB (convertToIC g) = true := by
  cases g <;> simp [convertToIC, isNodeB]

theorem fromICList_cons_node (z : ICNode) (rest : List ICNode)
    (hz : isNodeB z = true) :
    fromICList (z :: rest) = convertFromIC z :: fromICList rest := by
  cases z <;> simp_all [fromICList, isNodeB, convertFromIC]

theorem combsOf_cons_node (z : ICNode) (rest : List ICNode)
    (hz : isNodeB z = true) :
    combsOf (z :: rest) = combsOf rest := by
  cases z <;> simp_all [combsOf, isNodeB]

theorem combsOf_cons_comb (c : String) (rest : List ICNode) :
    combsOf (.comb c :: rest) = c :: combsOf rest := by
  simp [combsOf]

theorem combsOf_nil : combsOf [] = [] := rfl

theorem fromICList_toICList (c : String) :
    ∀ l : List GNode, (∀ x ∈ l, convertFromIC (convertToIC x) = x) →
      fromICList (toICList c l) = l
  | [], _ => rfl
  | [x], h => by
      simp [toICList, fromICList_cons_node _ _ (toIC_isNode x), fromICList,
        h x (by simp)]
  | x :: y :: rest, h => by
      have hx := h x (by simp)
      have hrec := fromICList_toICList c (y :: rest) (fun z hz => h z (by simp [hz]))
      simp [toICList, fromICList_cons_node _ _ (toIC_isNode x), fromICList, hx, hrec]

theorem firstCombD_toICList_long (c : String) (x y : GNode) (rest : List GNode) :
    firstCombD (toICList c (x :: y :: rest)) = c := by
  simp [toICList, firstCombD, combsOf_cons_node _ _ (toIC_isNode x), combsOf_cons_comb]

theorem roundtripG : ∀ g : GNode, normG g = true →
    convertFromIC (convertToIC g) = g := by
  intro g
  induction g using gnodeStrongInd with
  | hrule r => intro _; rfl
  | hgroup c rules negate ih =>
      intro h
      simp only [normG, Bool.and_eq_true] at h
      obtain ⟨hc, hlist⟩ := h
      have hIH : ∀ x ∈ rules, convertFromIC (convertToIC x) = x :=
        fun x hx => ih x hx (normGList_mem hlist x hx)
      simp only [convertToIC, convertFromIC]
      rcases rules with _ | ⟨x, _ | ⟨y, rest⟩⟩
      · have hcand : c = "and" := by simpa using hc
        simp [toICList, fromICList, firstCombD, combsOf_nil, hcand]
      · have hcand : c = "and" := by simpa using hc
        simp [toICList, fromICList_cons_node _ _ (toIC_isNode x), fromICList,
          firstCombD, combsOf_cons_node _ _ (toIC_isNode x), combsOf_nil, hcand,
          hIH x (by simp)]
      · simp [firstCombD_toICList_long, fromICList_toICList c _ hIH]

/-- Two-step list induction, matching the recursion pattern of `altShape`
and of the IC alternation lemmas. -/
def twoStepInduction {α : Type} {P : List α → Prop}
    (h0 : P []) (h1 : ∀ x, P [x])
    (h2 : ∀ x y rest, P rest → P (x :: y :: rest)) :
    ∀ l, P l
  | [] => h0
  | [x] => h1 x
  | x :: y :: rest => h2 x y rest (twoStepInduction h0 h1 h2 rest)

theorem altShape_head {b : Bool} {l : List Bool} (h : altShape (b :: l) = true) :
    b = true := by
  cases l with
  | nil => simpa [altShape] using h
  | cons b2 rest =>
      simp only [altShape, Bool.and_eq_true] at h
      exact h.1.1.1

theorem toICList_fromICList (c : String) :
    ∀ rs : List ICNode,
      altShape (rs.map isNodeB) = true →
      (∀ d ∈ combsOf rs, d = c) →
      (∀ x ∈ rs, isNodeB x = true → convertToIC (convertFromIC x) = x) →
      toICList c (fromICList rs) = rs := by
  intro rs
  induction rs using twoStepInduction with
  | h0 => intros; rfl
  | h1 x =>
      intro hshape hcombs hrt
      have hx : isNodeB x = true := altShape_head (by simpa using hshape)
      simp [fromICList_cons_node x [] hx, fromICList, toICList, hrt x (by simp) hx]
  | h2 x y rest ih =>
      intro hshape hcombs hrt
      simp only [List.map_cons, altShape, Bool.and_eq_true, Bool.not_eq_true',
        Bool.not_eq_true] at hshape
      obtain ⟨⟨⟨hx, hy⟩, hne⟩, hrest⟩ := hshape
      cases y with
      | rule r => simp [isNodeB] at hy
      | group g n => simp [isNodeB] at hy
      | comb d =>
          have hd : d = c := hcombs d (by
            rw [combsOf_cons_node x _ hx, combsOf_cons_comb]
            exact List.mem_cons_self d _)
          have hcombs2 : ∀ e ∈ combsOf rest, e = c := by
            intro e he
            exact hcombs e (by
              rw [combsOf_cons_node x _ hx, combsOf_cons_comb]
              exact List.mem_cons_of_mem d he)
          have hrt2 : ∀ x ∈ rest, isNodeB x = true →
              convertToIC (convertFromIC x) = x :=
            fun z hz => hrt z (by simp [hz])
          have hkey := ih hrest hcombs2 hrt2
          obtain ⟨r0, rest2, rfl⟩ : ∃ r0 rest2, rest = r0 :: rest2 := by
            cases rest with
            | nil => simp at hne
            | cons a b => exact ⟨a, b, rfl⟩
          have hr0 : isNodeB r0 = true := altShape_head (by simpa using hrest)
          rw [fromICList_cons_node x _ hx]
          simp only [fromICList]
          rw [fromICList_cons_node r0 _ hr0] at hkey ⊢
          simp only [toICList]
          rw [hrt x (by simp) hx, hkey, hd]

theorem roundtripIC : ∀ t : ICNode, isNodeB t = true → normIC t = true →
    convertToIC (convertFromIC t) = t := by
  intro t
  induction t using icnodeStrongInd with
  | hrule r => intros; rfl
  | hcomb c => intro h _; simp [isNodeB] at h
  | hgroup rs negate ih =>
      intro _ h
      simp only [normIC, Bool.and_eq_true] at h
      obtain ⟨⟨hshape, hcombs⟩, hlist⟩ := h
      have hcombs2 : ∀ d ∈ combsOf rs, d = firstCombD rs := by
        intro d hd
        have := List.all_eq_true.mp hcombs d hd
        simpa using this
      have hrt : ∀ x ∈ rs, isNodeB x = true → convertToIC (convertFromIC x) = x :=
        fun x hx hnx => ih x hx hnx (normICList_mem hlist x hx)
      simp only [convertFromIC, convertToIC]
      rw [toICList_fromICList (firstCombD rs) rs hshape hcombs2 hrt]

/-- C5: applying `convertQuery` twice returns the original query, for every
query of either shape that is in combinator-placement normal form (group
combinators meaningful — default `"and"` on groups with fewer than two
children — and IC combinator slots uniform within each group); this is the
involution property modulo combinator-placement normalization. -/
theorem convertQuery_involution (q : AnyQuery) (h : normalizedQuery q = true) :
    convertQuery (convertQuery q) = q := by
  cases q with
  | g t =>
      simp only [convertQuery]
      rw [roundtripG t (by simpa [normalizedQuery] using h)]
  | ic t =>
      simp only [normalizedQuery, Bool.and_eq_true] at h
      simp only [convertQuery]
      rw [roundtripIC t h.1 h.2]

theorem convertQuery_involution_witness :
    convertQuery (convertQuery (.g (.group "or"
        [.rule ⟨"a", "=", .str "1", none⟩,
         .group "and" [.rule ⟨"b", "=", .str "2", none⟩] true] false)))
      = .g (.group "or"
        [.rule ⟨"a", "=", .str "1", none⟩,
         .group "and" [.rule ⟨"b", "=", .str "2", none⟩] true] false) ∧
    convertQuery (convertQuery (.ic (.group
        [.rule ⟨"a", "=", .str "1", none⟩, .comb "or",
         .group [.rule ⟨"b", "=", .str "2", none⟩] true] false)))
      = .ic (.group
        [.rule ⟨"a", "=", .str "1", none⟩, .comb "or",
         .group [.rule ⟨"b", "=", .str "2", none⟩] true] false) :=
  ⟨convertQuery_involution _ (by decide), convertQuery_involution _ (by decide)⟩

/-! ### C1: the alternation invariant is preserved by add/remove/move -/

theorem set_get?_eq {α : Type} :
    ∀ (l : List α) (i : Nat) (a : α), l.get? i = some a → l.set i a = l
  | [], i, a, h => by simp [List.get?] at h
  | x :: xs, 0, a, h => by
      simp only [List.get?] at h
      injection h with h
      simp [h]
  | x :: xs, i + 1, a, h => by
      simp only [List.get?] at h
      simp [set_get?_eq xs i a h]

theorem take_ne_nil_of_ne_nil {α : Type} :
    ∀ (l : List α) (n : Nat), n ≠ 0 → l ≠ [] → l.take n ≠ []
  | [], _, _, h => absurd rfl h
  | x :: xs, 0, h, _ => absurd rfl h
  | x :: xs, n + 1, _, _ => by simp

theorem altShape_indexed :
    ∀ l : List Bool, altShape l = true →
      (l.length = 0 ∨ l.length % 2 = 1) ∧
      (∀ i b, l.get? i = some b →
        (i % 2 = 0 → b = true) ∧ (i % 2 = 1 → b = false)) := by
  intro l
  induction l using twoStepInduction with
  | h0 =>
      intro _
      exact ⟨Or.inl rfl, by intro i b h; simp [List.get?] at h⟩
  | h1 x =>
      intro h
      have hx : x = true := by simpa [altShape] using h
      refine ⟨Or.inr rfl, ?_⟩
      intro i b hget
      cases i with
      | zero =>
          simp only [List.get?] at hget
          injection hget with hget
          subst hget
          exact ⟨fun _ => hx, fun hc => by omega⟩
      | succ j => simp [List.get?] at hget
  | h2 x y rest ih =>
      intro h
      simp only [altShape, Bool.and_eq_true, Bool.not_eq_true',
        Bool.not_eq_true] at h
      obtain ⟨⟨⟨hx, hy⟩, hne⟩, hrest⟩ := h
      obtain ⟨ihlen, ihidx⟩ := ih hrest
      have hrne : rest ≠ [] := by
        intro h0
        rw [h0] at hne
        simp at hne
      have hlen : rest.length % 2 = 1 := by
        rcases ihlen with h0 | h1
        · exact absurd (List.length_eq_zero.mp h0) hrne
        · exact h1
      constructor
      · right
        simp only [List.length_cons]
        omega
      · intro i b hget
        cases i with
        | zero =>
            simp only [List.get?] at hget
            injection hget with hget
            subst hget
            exact ⟨fun _ => hx, fun hc => by omega⟩
        | succ i1 =>
            cases i1 with
            | zero =>
                simp only [List.get?] at hget
                injection hget with hget
                subst hget
                exact ⟨fun hc => by omega, fun _ => hy⟩
            | succ j =>
                simp only [List.get?] at hget
                have := ihidx j b hget
                constructor
                · intro hc
                  exact this.1 (by omega)
                · intro hc
                  exact this.2 (by omega)

theorem altShape_append :
    ∀ l : List Bool, altShape l = true → l ≠ [] →
      altShape (l ++ [false, true]) = true := by
  intro l
  induction l using twoStepInduction with
  | h0 => intro _ h; exact absurd rfl h
  | h1 x => intro h _; simp_all [altShape]
  | h2 x y rest ih =>
      intro h _
      simp only [altShape, Bool.and_eq_true, Bool.not_eq_true',
        Bool.not_eq_true] at h
      obtain ⟨⟨⟨hx, hy⟩, hne⟩, hrest⟩ := h
      have hrne : rest ≠ [] := by
        intro h0
        rw [h0] at hne
        simp at hne
      simp only [List.cons_append, altShape, Bool.and_eq_true,
        Bool.not_eq_true', Bool.not_eq_true]
      refine ⟨⟨⟨hx, hy⟩, ?_⟩, ih hrest hrne⟩
      simp

theorem altShape_removeAt :
    ∀ l : List Bool, altShape l = true → ∀ i, i % 2 = 0 →
      altShape (removeAt l i) = true := by
  intro l
  induction l using twoStepInduction with
  | h0 =>
      intro _ i _
      unfold removeAt
      split <;> simp [altShape]
  | h1 x =>
      intro h i hpar
      unfold removeAt
      split
      · simp [altShape]
      · rename_i hiz
        have h1 : (2 : Nat) ≤ i := by omega
        rw [List.take_of_length_le
            (by simp only [List.length_cons, List.length_nil]; omega),
          List.drop_eq_nil_of_le
            (by simp only [List.length_cons, List.length_nil]; omega)]
        simpa [altShape] using h
  | h2 x y rest ih =>
      intro h i hpar
      simp only [altShape, Bool.and_eq_true, Bool.not_eq_true',
        Bool.not_eq_true] at h
      obtain ⟨⟨⟨hx, hy⟩, hne⟩, hrest⟩ := h
      have hrne : rest ≠ [] := by
        intro h0
        rw [h0] at hne
        simp at hne
      cases i with
      | zero =>
          unfold removeAt
          simp [hrest]
      | succ i1 =>
          cases i1 with
          | zero => exact absurd hpar (by omega)
          | succ i2 =>
              cases i2 with
              | zero =>
                  -- i = 2: result is x :: rest.drop 1
                  have hred : removeAt (x :: y :: rest) 2 = x :: rest.drop 1 := by
                    unfold removeAt
                    simp [List.take, List.drop]
                  rw [hred]
                  cases rest with
                  | nil => exact absurd rfl hrne
                  | cons r0 rest2 =>
                      cases rest2 with
                      | nil => simpa [altShape] using hx
                      | cons r1 rest3 =>
                          simp only [List.drop]
                          simp only [altShape, Bool.and_eq_true,
                            Bool.not_eq_true', Bool.not_eq_true] at hrest ⊢
                          exact ⟨⟨⟨hx, hrest.1.1.2⟩, hrest.1.2⟩, hrest.2⟩
              | succ i3 =>
                  cases i3 with
                  | zero => exact absurd hpar (by omega)
                  | succ j =>
                      -- i = j + 4
                      have hjpar : (j + 2) % 2 = 0 := by omega
                      have hred : removeAt (x :: y :: rest) (j + 4)
                          = x :: y :: removeAt rest (j + 2) := by
                        unfold removeAt
                        simp only [if_neg (by omega : ¬ j + 4 = 0),
                          if_neg (by omega : ¬ j + 2 = 0)]
                        have e1 : j + 4 - 1 = (j + 2 - 1) + 2 := by omega
                        have e2 : j + 4 + 1 = (j + 2 + 1) + 2 := by omega
                        rw [e1, e2]
                        simp [List.take, List.drop]
                      rw [hred]
                      have hih := ih hrest (j + 2) hjpar
                      have hne2 : removeAt rest (j + 2) ≠ [] := by
                        unfold removeAt
                        rw [if_neg (by omega : ¬ j + 2 = 0)]
                        intro hnil
                        rcases List.append_eq_nil.mp hnil with ⟨ht, -⟩
                        exact take_ne_nil_of_ne_nil rest (j + 1) (by omega) hrne ht
                      simp only [altShape, Bool.and_eq_true, Bool.not_eq_true',
                        Bool.not_eq_true]
                      refine ⟨⟨⟨hx, hy⟩, ?_⟩, hih⟩
                      simpa using hne2

theorem map_removeAt {α β : Type} (f : α → β) (l : List α) (i : Nat) :
    (removeAt l i).map f = removeAt (l.map f) i := by
  unfold removeAt
  split <;> simp [List.map_take, List.map_drop]

theorem wfICList_mem : ∀ {l : List ICNode}, wfICList l = true →
    ∀ x ∈ l, wfIC x = true
  | [], _, x, hx => absurd hx (List.not_mem_nil x)
  | y :: ys, h, x, hx => by
      simp only [wfICList, Bool.and_eq_true] at h
      rcases List.mem_cons.mp hx with rfl | hx2
      · exact h.1
      · exact wfICList_mem h.2 x hx2

theorem wfICList_of_forall : ∀ l : List ICNode,
    (∀ x ∈ l, wfIC x = true) → wfICList l = true
  | [], _ => rfl
  | y :: ys, h => by
      simp only [wfICList, Bool.and_eq_true]
      exact ⟨h y (by simp), wfICList_of_forall ys (fun x hx => h x (by simp [hx]))⟩

theorem removeAt_subset {α : Type} (l : List α) (i : Nat) :
    ∀ x ∈ removeAt l i, x ∈ l := by
  intro x hx
  unfold removeAt at hx
  split at hx
  · exact List.mem_of_mem_drop hx
  · rcases List.mem_append.mp hx with h | h
    · exact List.mem_of_mem_take h
    · exact List.mem_of_mem_drop h

theorem wf_node_even (rs : List ICNode) (i : Nat) (x : ICNode)
    (hshape : altShape (rs.map isNodeB) = true)
    (hget : rs.get? i = some x) (hx : isNodeB x = true) : i % 2 = 0 := by
  rcases Nat.mod_two_eq_zero_or_one i with h | h
  · exact h
  · exfalso
    have hmget : (rs.map isNodeB).get? i = some (isNodeB x) := by
      rw [List.get?_map, hget]
      rfl
    have := ((altShape_indexed _ hshape).2 i (isNodeB x) hmget).2 h
    rw [hx] at this
    simp at this

theorem addGo_wf :
    ∀ (path : List Nat) (rs : List ICNode) (item : ICNode) (rs2 : List ICNode),
      addGo rs path item = some rs2 →
      altShape (rs.map isNodeB) = true → wfICList rs = true →
      isNodeB item = true → wfIC item = true →
      altShape (rs2.map isNodeB) = true ∧ wfICList rs2 = true
  | [], rs, item, rs2, heq, hshape, hlist, hni, hwi => by
      simp only [addGo] at heq
      injection heq with heq
      subst heq
      cases rs with
      | nil =>
          refine ⟨?_, ?_⟩
          · show altShape [isNodeB item] = true
            rw [hni]
            rfl
          · show (wfIC item && wfICList []) = true
            rw [hwi]
            rfl
      | cons a as =>
          rw [if_neg (by simp)]
          constructor
          · rw [List.map_append]
            have : (List.map isNodeB [ICNode.comb "and", item]) = [false, true] := by
              simp only [List.map_cons, List.map_nil]
              rw [hni]
              rfl
            rw [this]
            exact altShape_append _ hshape (by simp)
          · apply wfICList_of_forall
            intro x hx
            rcases List.mem_append.mp hx with h | h
            · exact wfICList_mem hlist x h
            · rcases List.mem_cons.mp h with rfl | h2
              · rfl
              · rcases List.mem_cons.mp h2 with rfl | h3
                · exact hwi
                · exact absurd h3 (List.not_mem_nil x)
  | i :: rest, rs, item, rs2, heq, hshape, hlist, hni, hwi => by
      simp only [addGo] at heq
      split at heq
      · rename_i inner neg hg
        split at heq
        · rename_i inner2 ha
          simp only [Option.some.injEq] at heq
          subst heq
          have hmem : ICNode.group inner neg ∈ rs := List.get?_mem hg
          have hwfg := wfICList_mem hlist _ hmem
          simp only [wfIC, Bool.and_eq_true] at hwfg
          obtain ⟨hshapeI, hlistI⟩ := hwfg
          obtain ⟨hshape2, hlist2⟩ :=
            addGo_wf rest inner item inner2 ha hshapeI hlistI hni hwi
          constructor
          · rw [List.map_set]
            have hmget : (rs.map isNodeB).get? i
                = some (isNodeB (ICNode.group inner neg)) := by
              rw [List.get?_map, hg]
              rfl
            rw [show isNodeB (ICNode.group inner2 neg)
                = isNodeB (ICNode.group inner neg) from rfl]
            rw [set_get?_eq _ _ _ hmget]
            exact hshape
          · apply wfICList_of_forall
            intro x hx
            rcases List.mem_or_eq_of_mem_set hx with h | rfl
            · exact wfICList_mem hlist x h
            · simp only [wfIC, Bool.and_eq_true]
              exact ⟨hshape2, hlist2⟩
        · exact absurd heq (by simp)
      · exact absurd heq (by simp)

theorem removeGo_wf :
    ∀ (path : List Nat) (rs : List ICNode) (rs2 : List ICNode),
      removeGo rs path = some rs2 →
      altShape (rs.map isNodeB) = true → wfICList rs = true →
      altShape (rs2.map isNodeB) = true ∧ wfICList rs2 = true
  | [], rs, rs2, heq, _, _ => by simp [removeGo] at heq
  | [i], rs, rs2, heq, hshape, hlist => by
      simp only [removeGo] at heq
      cases hg : rs.get? i with
      | none => rw [hg] at heq; simp at heq
      | some x =>
          rw [hg] at heq
          simp only at heq
          cases hnx : isNodeB x with
          | false => rw [hnx] at heq; simp at heq
          | true =>
              rw [hnx] at heq
              simp only [if_true, Option.some.injEq] at heq
              subst heq
              have hpar : i % 2 = 0 := wf_node_even rs i x hshape hg hnx
              constructor
              · rw [map_removeAt]
                exact altShape_removeAt _ hshape i hpar
              · exact wfICList_of_forall _
                  (fun z hz => wfICList_mem hlist z (removeAt_subset rs i z hz))
  | i :: j :: rest, rs, rs2, heq, hshape, hlist => by
      simp only [removeGo] at heq
      split at heq
      · rename_i inner neg hg
        split at heq
        · rename_i inner2 ha
          simp only [Option.some.injEq] at heq
          subst heq
          have hmem : ICNode.group inner neg ∈ rs := List.get?_mem hg
          have hwfg := wfICList_mem hlist _ hmem
          simp only [wfIC, Bool.and_eq_true] at hwfg
          obtain ⟨hshapeI, hlistI⟩ := hwfg
          obtain ⟨hshape2, hlist2⟩ :=
            removeGo_wf (j :: rest) inner inner2 ha hshapeI hlistI
          constructor
          · rw [List.map_set]
            have hmget : (rs.map isNodeB).get? i
                = some (isNodeB (ICNode.group inner neg)) := by
              rw [List.get?_map, hg]
              rfl
            rw [show isNodeB (ICNode.group inner2 neg)
                = isNodeB (ICNode.group inner neg) from rfl]
            rw [set_get?_eq _ _ _ hmget]
            exact hshape
          · apply wfICList_of_forall
            intro x hx
            rcases List.mem_or_eq_of_mem_set hx with h | rfl
            · exact wfICList_mem hlist x h
            · simp only [wfIC, Bool.and_eq_true]
              exact ⟨hshape2, hlist2⟩
        · exact absurd heq (by simp)
      · exact absurd heq (by simp)

theorem findPath_wf :
    ∀ (path : List Nat) (t : ICNode) (x : ICNode),
      wfIC t = true → findPath t path = some x → wfIC x = true
  | [], t, x, ht, heq => by
      simp only [findPath, Option.some.injEq] at heq
      subst heq
      exact ht
  | i :: rest, t, x, ht, heq => by
      cases t with
      | rule r => simp [findPath] at heq
      | comb c => simp [findPath] at heq
      | group rs neg =>
          simp only [findPath] at heq
          split at heq
          · rename_i child hg
            have hmem : child ∈ rs := List.get?_mem hg
            simp only [wfIC, Bool.and_eq_true] at ht
            exact findPath_wf rest child x (wfICList_mem ht.2 child hmem) heq
          · exact absurd heq (by simp)

theorem icAdd_wf (t item : ICNode) (path : List Nat)
    (ht : wfIC t = true) (hni : isNodeB item = true) (hwi : wfIC item = true) :
    wfIC (icAdd t item path) = true := by
  cases t with
  | rule r => simpa [icAdd] using ht
  | comb c => simpa [icAdd] using ht
  | group rs neg =>
      simp only [icAdd]
      cases ha : addGo rs path item with
      | none => exact ht
      | some rs2 =>
          simp only [wfIC, Bool.and_eq_true] at ht ⊢
          exact addGo_wf path rs item rs2 ha ht.1 ht.2 hni hwi

theorem icRemove_wf (t : ICNode) (path : List Nat) (ht : wfIC t = true) :
    wfIC (icRemove t path) = true := by
  cases t with
  | rule r => simpa [icRemove] using ht
  | comb c => simpa [icRemove] using ht
  | group rs neg =>
      simp only [icRemove]
      cases ha : removeGo rs path with
      | none => exact ht
      | some rs2 =>
          simp only [wfIC, Bool.and_eq_true] at ht ⊢
          exact removeGo_wf path rs rs2 ha ht.1 ht.2

theorem icMove_wf (t : ICNode) (o n : List Nat) (c : Bool) (ht : wfIC t = true) :
    wfIC (icMove t o n c) = true := by
  unfold icMove
  split
  · exact ht
  · split
    · exact ht
    · cases hf : findPath t o with
      | none => exact ht
      | some item =>
          simp only
          cases hni : isNodeB item with
          | false => simpa using ht
          | true =>
              simp only [if_true]
              have hwi : wfIC item = true := findPath_wf o t item ht hf
              have ht2 : wfIC (if c then t else icRemove t o) = true := by
                cases c with
                | true => simpa using ht
                | false => simpa using icRemove_wf t o ht
              generalize (if c then t else icRemove t o) = t2 at ht2 ⊢
              cases t2 with
              | rule r => exact ht
              | comb cc => exact ht
              | group rs neg =>
                  show wfIC (match addGo rs n.dropLast item with
                    | some rs2 => ICNode.group rs2 neg
                    | none => t) = true
                  cases ha : addGo rs n.dropLast item with
                  | none => exact ht
                  | some rs2 =>
                      simp only [wfIC, Bool.and_eq_true] at ht2 ⊢
                      exact addGo_wf n.dropLast rs item rs2 ha ht2.1 ht2.2 hni hwi

theorem applyOp_wf (t : ICNode) (op : ICOp)
    (ht : wfIC t = true) (hop : wfOpB op = true) : wfIC (applyOp t op) = true := by
  cases op with
  | add item path =>
      simp only [wfOpB, Bool.and_eq_true] at hop
      exact icAdd_wf t item path ht hop.1 hop.2
  | remove path => exact icRemove_wf t path ht
  | move o n c => exact icMove_wf t o n c ht

theorem applyOps_wf :
    ∀ (ops : List ICOp) (t : ICNode), wfIC t = true →
      (∀ op ∈ ops, wfOpB op = true) → wfIC (applyOps ops t) = true
  | [], t, ht, _ => ht
  | op :: ops, t, ht, hops => by
      simp only [applyOps, List.foldl_cons]
      exact applyOps_wf ops (applyOp t op)
        (applyOp_wf t op ht (hops op (by simp)))
        (fun o ho => hops o (by simp [ho]))

/-- The `rules` arrays reachable in an IC tree: the root group's own array
and, recursively, those of all nested groups. -/
inductive SubRules : ICNode → List ICNode → Prop where
  | here (rs : List ICNode) (negate : Bool) : SubRules (.group rs negate) rs
  | child (x : ICNode) (rs rs2 : List ICNode) (negate : Bool) :
      x ∈ rs → SubRules x rs2 → SubRules (.group rs negate) rs2

theorem subRules_altShape {t : ICNode} {rs : List ICNode}
    (hsub : SubRules t rs) : wfIC t = true → altShape (rs.map isNodeB) = true := by
  induction hsub with
  | here rs neg =>
      intro ht
      simp only [wfIC, Bool.and_eq_true] at ht
      exact ht.1
  | child x rs rs2 neg hmem hsub2 ih =>
      intro ht
      simp only [wfIC, Bool.and_eq_true] at ht
      exact ih (wfICList_mem ht.2 x hmem)

/-- The indexed statement of the IC invariant for one `rules` array:
length 0 or odd, rule/group nodes at even indices, combinator strings at
odd indices, and node (never combinator) ends. -/
def icRulesIndexedOk (rs : List ICNode) : Prop :=
  (rs.length = 0 ∨ rs.length % 2 = 1) ∧
  (∀ i x, rs.get? i = some x →
    (i % 2 = 0 → isNodeB x = true) ∧ (i % 2 = 1 → isNodeB x = false)) ∧
  (∀ x, rs.get? 0 = some x → isNodeB x = true) ∧
  (∀ x, rs.get? (rs.length - 1) = some x → isNodeB x = true)

theorem icRulesIndexedOk_of_altShape (rs : List ICNode)
    (h : altShape (rs.map isNodeB) = true) : icRulesIndexedOk rs := by
  obtain ⟨hlen, hidx⟩ := altShape_indexed _ h
  rw [List.length_map] at hlen
  have hget : ∀ i x, rs.get? i = some x →
      (i % 2 = 0 → isNodeB x = true) ∧ (i % 2 = 1 → isNodeB x = false) := by
    intro i x hg
    have hmg : (rs.map isNodeB).get? i = some (isNodeB x) := by
      rw [List.get?_map, hg]
      rfl
    exact hidx i (isNodeB x) hmg
  refine ⟨hlen, hget, ?_, ?_⟩
  · intro x hg
    exact (hget 0 x hg).1 rfl
  · intro x hg
    have hne : rs.length ≠ 0 := by
      intro h0
      rw [List.length_eq_zero.mp h0] at hg
      simp [List.get?] at hg
    have hodd : rs.length % 2 = 1 := by
      rcases hlen with h0 | h1
      · exact absurd h0 hne
      · exact h1
    exact (hget _ x hg).1 (by omega)

/-- C1: starting from any well-formed IC tree and applying any finite
sequence of `add`/`remove`/`move` operations (each added item a rule or a
group, itself well-formed), every `rules` array of every group of the
resulting tree has length 0 or odd, holds rule/group nodes at all even
indices and combinator strings at all odd indices, and its first and last
elements, when present, are nodes, never combinator strings. -/
theorem ic_invariant_preserved (t : ICNode) (ops : List ICOp)
    (ht : wfIC t = true) (hops : ∀ op ∈ ops, wfOpB op = true) :
    ∀ rs, SubRules (applyOps ops t) rs → icRulesIndexedOk rs := by
  intro rs hsub
  exact icRulesIndexedOk_of_altShape rs
    (subRules_altShape hsub (applyOps_wf ops t ht hops))

theorem ic_invariant_preserved_witness :
    icRulesIndexedOk [.rule ⟨"a", "=", .str "1", none⟩, .comb "and",
      .rule ⟨"b", "=", .str "2", none⟩, .comb "and",
      .rule ⟨"c", "=", .str "3", none⟩] := by
  have h := ic_invariant_preserved (.group [.rule ⟨"a", "=", .str "1", none⟩] false)
    [.add (.rule ⟨"b", "=", .str "2", none⟩) [],
     .add (.rule ⟨"c", "=", .str "3", none⟩) [],
     .move [4] [0] false]
    (by decide) (by decide)
  have e : applyOps
      [.add (.rule ⟨"b", "=", .str "2", none⟩) [],
       .add (.rule ⟨"c", "=", .str "3", none⟩) [],
       .move [4] [0] false]
      (.group [.rule ⟨"a", "=", .str "1", none⟩] false)
      = .group [.rule ⟨"a", "=", .str "1", none⟩, .comb "and",
          .rule ⟨"b", "=", .str "2", none⟩, .comb "and",
          .rule ⟨"c", "=", .str "3", none⟩] false := rfl
  exact h _ (e ▸ SubRules.here _ false)
